import Mathlib

/-!
Shallow embedding of the `split-whitespace-rest` crate (`src/lib.rs`).

A `SplitWhitespace` tokenizer holds a borrowed string slice and its
`next` method repeatedly scans for the first whitespace code point,
returning the non-whitespace prefix and dropping one *byte* past the
found offset.  We model the string slice as a `List Char` together with
the UTF-8 code-unit length of each character: `str::find` returns a
byte offset (always a character boundary), and re-slicing at
`offset + 1` is a character boundary exactly when the matched
whitespace character occupies one byte.  Slicing at a non-boundary
panics in Rust; the model returns `Except.error ()` there.
-/

/-- UTF-8 code-unit (byte) length of a character, per the UTF-8 encoding
used by Rust `str`. -/
def utf8Len (c : Char) : Nat :=
  if c.toNat < 0x80 then 1
  else if c.toNat < 0x800 then 2
  else if c.toNat < 0x10000 then 3
  else 4

/-- Rust's `char::is_whitespace`: the Unicode `White_Space` property. -/
def isRustWhitespace (c : Char) : Bool :=
  let n := c.toNat
  (decide (0x09 ≤ n) && decide (n ≤ 0x0D)) || decide (n = 0x20) ||
  decide (n = 0x85) || decide (n = 0xA0) || decide (n = 0x1680) ||
  (decide (0x2000 ≤ n) && decide (n ≤ 0x200A)) || decide (n = 0x2028) ||
  decide (n = 0x2029) || decide (n = 0x202F) || decide (n = 0x205F) ||
  decide (n = 0x3000)

/-- The predicate `str::find` searches with, negated: a non-whitespace
character. -/
def nonWs (c : Char) : Bool := ! isRustWhitespace c

/-- The tokenizer state: the `slice` field of `SplitWhitespace`. -/
structure SplitWhitespace where
  slice : List Char
deriving DecidableEq

/-- `SplitWhitespace::new`: stores the given slice verbatim. -/
def new (s : List Char) : SplitWhitespace := ⟨s⟩

/-- `SplitWhitespace::rest_as_slice`: returns the stored slice. -/
def rest_as_slice (t : SplitWhitespace) : List Char := t.slice

/-- `<SplitWhitespace as Iterator>::next`, acting on the slice.

The Rust loop body: `self.slice.find(char::is_whitespace)` returns the
byte offset of the first whitespace character (hence its chars are
`prefix of non-whitespace ++ found char ++ tail`); `sub` is the
non-whitespace prefix; `self.slice = &self.slice[offset + 1..]` panics
unless the found whitespace character is a single UTF-8 byte, and
otherwise leaves the tail; an empty `sub` makes the loop continue (the
slice having lost its first, whitespace, character).  When no
whitespace is found, a non-empty slice is returned whole (the slice
becoming empty), and an empty slice yields `none`.

Result: `Except.error ()` models a panic; `Except.ok (o, r)` models a
normal return of `o` with the slice mutated to `r`. -/
def next : List Char → Except Unit (Option (List Char) × List Char)
  | [] => Except.ok (none, [])
  | c :: cs =>
    if isRustWhitespace c then
      -- found at offset 0: `sub` is empty; slicing at `0 + 1` is a
      -- boundary only for a 1-byte whitespace char; then `continue`.
      if utf8Len c = 1 then next cs
      else Except.error ()
    else
      match cs.dropWhile nonWs with
      | [] => Except.ok (some (c :: cs), [])
      | w :: tail =>
        -- `w` is the first whitespace char, at byte offset `|c| + |pre|`.
        if utf8Len w = 1 then
          Except.ok (some (c :: cs.takeWhile nonWs), tail)
        else Except.error ()

/-- Repeatedly call `next`, collecting the returned tokens until the
first end-of-sequence signal; an iteration budget makes the recursion
structural, and exhausting it is reported as an error (so an `ok`
result always denotes a genuinely completed iteration). -/
def tokensFuel : Nat → List Char → Except Unit (List (List Char))
  | 0, _ => Except.error ()
  | fuel + 1, s =>
    match next s with
    | Except.error e => Except.error e
    | Except.ok (none, _) => Except.ok []
    | Except.ok (some t, r) =>
      match tokensFuel fuel r with
      | Except.error e => Except.error e
      | Except.ok ts => Except.ok (t :: ts)

/-- The full token sequence of a slice; a budget of `length + 1` calls
suffices because every token-returning call strictly shrinks the
slice. -/
def tokens (s : List Char) : Except Unit (List (List Char)) :=
  tokensFuel (s.length + 1) s

/-- Concatenation of token spans with exactly one separator character
between consecutive tokens (the reconstruction the spec describes). -/
def joinWithSep (sep : Char) : List (List Char) → List Char
  | [] => []
  | [t] => t
  | t :: ts => t ++ sep :: joinWithSep sep ts

/-- The retry loop of `next` with an explicit iteration budget: `none`
means the budget was exhausted before the loop broke.  Each iteration
of the Rust loop either breaks or drops the first character of the
slice, so a budget of `length + 1` iterations always suffices. -/
def nextIterFuel : Nat → List Char → Option (Except Unit (Option (List Char) × List Char))
  | 0, _ => none
  | _ + 1, [] => some (Except.ok (none, []))
  | fuel + 1, c :: cs =>
    if isRustWhitespace c then
      if utf8Len c = 1 then nextIterFuel fuel cs
      else some (Except.error ())
    else
      match cs.dropWhile nonWs with
      | [] => some (Except.ok (some (c :: cs), []))
      | w :: tail =>
        if utf8Len w = 1 then
          some (Except.ok (some (c :: cs.takeWhile nonWs), tail))
        else some (Except.error ())

instance {ε α : Type} [DecidableEq ε] [DecidableEq α] : DecidableEq (Except ε α) := fun x y =>
  match x, y with
  | .error a, .error b =>
    if h : a = b then isTrue (by rw [h]) else isFalse (fun hc => by cases hc; exact h rfl)
  | .ok a, .ok b =>
    if h : a = b then isTrue (by rw [h]) else isFalse (fun hc => by cases hc; exact h rfl)
  | .error _, .ok _ => isFalse (fun hc => by cases hc)
  | .ok _, .error _ => isFalse (fun hc => by cases hc)

/-! ### Structural lemmas -/

/-- If `dropWhile p` yields a cons, its head fails `p` and the list splits
as `takeWhile p ++ head :: tail`. -/
theorem dropWhile_eq_cons_spec {p : Char → Bool} :
    ∀ {l : List Char} {w : Char} {tail : List Char}, l.dropWhile p = w :: tail →
      p w = false ∧ l = l.takeWhile p ++ w :: tail := by
  intro l
  induction l with
  | nil => intro w tail h; simp [List.dropWhile] at h
  | cons a l ih =>
    intro w tail h
    by_cases hp : p a = true
    · rw [List.dropWhile_cons_of_pos hp] at h
      obtain ⟨h1, h2⟩ := ih h
      exact ⟨h1, by rw [List.takeWhile_cons_of_pos hp, List.cons_append, ← h2]⟩
    · have hp' : p a = false := by simpa using hp
      rw [List.dropWhile_cons_of_neg (by simp [hp'])] at h
      cases h
      exact ⟨hp', by rw [List.takeWhile_cons_of_neg (by simp [hp']), List.nil_append]⟩

/-- A token-returning call decomposes the slice as: a run of skipped
(single-byte) whitespace, the token, and either one terminating
whitespace character followed by the new slice, or nothing (the token
ran to the end of the buffer and the new slice is empty). -/
theorem next_some_spec :
    ∀ {s t r : List Char}, next s = Except.ok (some t, r) →
      ∃ w, (∀ x ∈ w, isRustWhitespace x = true) ∧ t ≠ [] ∧
        (∀ x ∈ t, isRustWhitespace x = false) ∧
        ((∃ c, isRustWhitespace c = true ∧ s = w ++ t ++ c :: r) ∨ (r = [] ∧ s = w ++ t)) := by
  intro s
  induction s with
  | nil => intro t r h; simp [next] at h
  | cons c cs ih =>
    intro t r h
    by_cases hws : isRustWhitespace c = true
    · by_cases hsz : utf8Len c = 1
      · rw [show next (c :: cs) = next cs by simp [next, hws, hsz]] at h
        obtain ⟨w, hw, ht, htw, hcase⟩ := ih h
        refine ⟨c :: w, ?_, ht, htw, ?_⟩
        · intro x hx
          rcases List.mem_cons.mp hx with rfl | hx
          · exact hws
          · exact hw x hx
        · rcases hcase with ⟨d, hd, hsplit⟩ | ⟨hr, hsplit⟩
          · exact Or.inl ⟨d, hd, by simp [hsplit]⟩
          · exact Or.inr ⟨hr, by simp [hsplit]⟩
      · rw [show next (c :: cs) = Except.error () by simp [next, hws, hsz]] at h
        cases h
    · have hws' : isRustWhitespace c = false := by simpa using hws
      cases hdw : cs.dropWhile nonWs with
      | nil =>
        rw [show next (c :: cs) = Except.ok (some (c :: cs), []) by
          simp [next, hws', hdw]] at h
        obtain ⟨rfl, rfl⟩ : t = c :: cs ∧ r = [] := by
          have := (Except.ok.inj h)
          exact ⟨(Option.some.inj (congrArg Prod.fst this)).symm,
            (congrArg Prod.snd this).symm⟩
        have hall : ∀ x ∈ c :: cs, isRustWhitespace x = false := by
          intro x hx
          rcases List.mem_cons.mp hx with rfl | hx
          · exact hws'
          · have hx' : x ∈ cs.takeWhile nonWs := by
              rw [← List.takeWhile_append_dropWhile (p := nonWs) (l := cs), hdw] at hx
              simpa using hx
            have := List.mem_takeWhile_imp hx'
            simpa [nonWs] using this
        exact ⟨[], by simp, by simp, hall, Or.inr ⟨rfl, rfl⟩⟩
      | cons w tail =>
        obtain ⟨hwf, hsplit⟩ := dropWhile_eq_cons_spec hdw
        have hwws : isRustWhitespace w = true := by simpa [nonWs] using hwf
        by_cases hsz : utf8Len w = 1
        · rw [show next (c :: cs) = Except.ok (some (c :: cs.takeWhile nonWs), tail) by
            simp [next, hws', hdw, hsz]] at h
          obtain ⟨rfl, rfl⟩ : t = c :: cs.takeWhile nonWs ∧ r = tail := by
            have := (Except.ok.inj h)
            exact ⟨(Option.some.inj (congrArg Prod.fst this)).symm,
              (congrArg Prod.snd this).symm⟩
          refine ⟨[], by simp, by simp, ?_, Or.inl ⟨w, hwws, ?_⟩⟩
          · intro x hx
            rcases List.mem_cons.mp hx with rfl | hx
            · exact hws'
            · have := List.mem_takeWhile_imp hx
              simpa [nonWs] using this
          · simpa using congrArg (fun l => c :: l) hsplit
        · rw [show next (c :: cs) = Except.error () by simp [next, hws', hdw, hsz]] at h
          cases h

/-- An end-of-sequence signal leaves an empty slice, and only occurs when
every character of the slice was (single-byte) whitespace. -/
theorem next_none_spec :
    ∀ {s r : List Char}, next s = Except.ok (none, r) →
      r = [] ∧ ∀ x ∈ s, isRustWhitespace x = true := by
  intro s
  induction s with
  | nil =>
    intro r h
    have := (Except.ok.inj h)
    exact ⟨(congrArg Prod.snd this).symm, by simp⟩
  | cons c cs ih =>
    intro r h
    by_cases hws : isRustWhitespace c = true
    · by_cases hsz : utf8Len c = 1
      · rw [show next (c :: cs) = next cs by simp [next, hws, hsz]] at h
        obtain ⟨hr, hall⟩ := ih h
        refine ⟨hr, ?_⟩
        intro x hx
        rcases List.mem_cons.mp hx with rfl | hx
        · exact hws
        · exact hall x hx
      · rw [show next (c :: cs) = Except.error () by simp [next, hws, hsz]] at h
        cases h
    · have hws' : isRustWhitespace c = false := by simpa using hws
      cases hdw : cs.dropWhile nonWs with
      | nil =>
        rw [show next (c :: cs) = Except.ok (some (c :: cs), []) by
          simp [next, hws', hdw]] at h
        exact absurd (congrArg Prod.fst (Except.ok.inj h)) (by simp)
      | cons w tail =>
        by_cases hsz : utf8Len w = 1
        · rw [show next (c :: cs) = Except.ok (some (c :: cs.takeWhile nonWs), tail) by
            simp [next, hws', hdw, hsz]] at h
          exact absurd (congrArg Prod.fst (Except.ok.inj h)) (by simp)
        · rw [show next (c :: cs) = Except.error () by simp [next, hws', hdw, hsz]] at h
          cases h

/-- A token-returning call preserves the non-whitespace content: the
token followed by the new slice's non-whitespace content. -/
theorem next_some_filter {s t r : List Char} (h : next s = Except.ok (some t, r)) :
    s.filter nonWs = t ++ r.filter nonWs := by
  obtain ⟨w, hw, ht, htw, hcase⟩ := next_some_spec h
  have hwnil : w.filter nonWs = [] := by
    rw [List.filter_eq_nil_iff]
    intro a ha
    simp [nonWs, hw a ha]
  have htself : t.filter nonWs = t := by
    rw [List.filter_eq_self]
    intro a ha
    simp [nonWs, htw a ha]
  rcases hcase with ⟨c, hc, hsplit⟩ | ⟨hr, hsplit⟩
  · rw [hsplit, List.filter_append, List.filter_append, hwnil, htself,
      List.filter_cons_of_neg (by simp [nonWs, hc])]
    simp
  · rw [hsplit, hr, List.filter_append, hwnil, htself]
    simp

/-- An end-of-sequence signal means the slice had no non-whitespace
content. -/
theorem next_none_filter {s r : List Char} (h : next s = Except.ok (none, r)) :
    s.filter nonWs = [] := by
  rw [List.filter_eq_nil_iff]
  intro a ha
  simp [nonWs, (next_none_spec h).2 a ha]

/-- Each token-returning call strictly shrinks the slice. -/
theorem next_some_length {s t r : List Char} (h : next s = Except.ok (some t, r)) :
    r.length < s.length := by
  obtain ⟨w, hw, ht, htw, hcase⟩ := next_some_spec h
  have htpos : 0 < t.length := List.length_pos.mpr ht
  rcases hcase with ⟨c, hc, hsplit⟩ | ⟨hr, hsplit⟩
  · rw [hsplit]; simp; omega
  · rw [hsplit, hr]; simp; omega

/-- Unfolding `tokensFuel` when `next` panics. -/
theorem tokensFuel_succ_err {fuel : Nat} {s : List Char} {e : Unit}
    (hn : next s = Except.error e) : tokensFuel (fuel + 1) s = Except.error e := by
  rw [tokensFuel, hn]

/-- Unfolding `tokensFuel` at an end-of-sequence signal. -/
theorem tokensFuel_succ_none {fuel : Nat} {s r : List Char}
    (hn : next s = Except.ok (none, r)) : tokensFuel (fuel + 1) s = Except.ok [] := by
  rw [tokensFuel, hn]

/-- Unfolding `tokensFuel` at a returned token, completed tail. -/
theorem tokensFuel_succ_some {fuel : Nat} {s t r : List Char} {ts : List (List Char)}
    (hn : next s = Except.ok (some t, r)) (htf : tokensFuel fuel r = Except.ok ts) :
    tokensFuel (fuel + 1) s = Except.ok (t :: ts) := by
  rw [tokensFuel, hn]
  show (match tokensFuel fuel r with
    | Except.error e => Except.error e
    | Except.ok ts => Except.ok (t :: ts)) = Except.ok (t :: ts)
  rw [htf]

/-- Unfolding `tokensFuel` at a returned token, failed tail. -/
theorem tokensFuel_succ_some_err {fuel : Nat} {s t r : List Char} {e : Unit}
    (hn : next s = Except.ok (some t, r)) (htf : tokensFuel fuel r = Except.error e) :
    tokensFuel (fuel + 1) s = Except.error e := by
  rw [tokensFuel, hn]
  show (match tokensFuel fuel r with
    | Except.error e => Except.error e
    | Except.ok ts => Except.ok (t :: ts)) = Except.error e
  rw [htf]

/-- A completed iteration (no panic, budget not exhausted) yields tokens
whose concatenation is exactly the non-whitespace content of the slice,
each token non-empty and whitespace-free. -/
theorem tokensFuel_spec :
    ∀ (fuel : Nat) {s : List Char} {ts : List (List Char)},
      tokensFuel fuel s = Except.ok ts →
      ts.flatten = s.filter nonWs ∧ ∀ t ∈ ts, t ≠ [] ∧ ∀ x ∈ t, isRustWhitespace x = false := by
  intro fuel
  induction fuel with
  | zero => intro s ts h; simp [tokensFuel] at h
  | succ fuel ih =>
    intro s ts h
    cases hn : next s with
    | error e => rw [tokensFuel_succ_err hn] at h; cases h
    | ok p =>
      obtain ⟨o, r⟩ := p
      cases o with
      | none =>
        rw [tokensFuel_succ_none hn] at h
        obtain rfl : ([] : List (List Char)) = ts := Except.ok.inj h
        exact ⟨by simp [next_none_filter hn], by simp⟩
      | some t =>
        cases htf : tokensFuel fuel r with
        | error e => rw [tokensFuel_succ_some_err hn htf] at h; cases h
        | ok ts' =>
          rw [tokensFuel_succ_some hn htf] at h
          obtain rfl : t :: ts' = ts := Except.ok.inj h
          obtain ⟨hj, hall⟩ := ih htf
          obtain ⟨w, hw, ht, htw, hcase⟩ := next_some_spec hn
          refine ⟨?_, ?_⟩
          · rw [List.flatten_cons, hj, next_some_filter hn]
          · intro u hu
            rcases List.mem_cons.mp hu with rfl | hu
            · exact ⟨ht, htw⟩
            · exact hall u hu

/-- Joining whitespace-free tokens with one whitespace separator and
filtering out whitespace recovers the plain concatenation. -/
theorem filter_joinWithSep {sep : Char} (hsep : isRustWhitespace sep = true) :
    ∀ {ts : List (List Char)}, (∀ t ∈ ts, ∀ x ∈ t, isRustWhitespace x = false) →
      (joinWithSep sep ts).filter nonWs = ts.flatten := by
  intro ts
  induction ts with
  | nil => intro hall; simp [joinWithSep]
  | cons t ts ih =>
    intro hall
    have htself : t.filter nonWs = t := by
      rw [List.filter_eq_self]
      intro a ha
      simp [nonWs, hall t (by simp) a ha]
    cases ts with
    | nil => simpa [joinWithSep] using htself
    | cons t' rest =>
      have hexp : joinWithSep sep (t :: t' :: rest) = t ++ sep :: joinWithSep sep (t' :: rest) :=
        rfl
      rw [hexp, List.filter_append, htself,
        List.filter_cons_of_neg (by simp [nonWs, hsep]),
        ih (fun u hu x hx => hall u (List.mem_cons_of_mem _ hu) x hx)]
      simp

/-- When every whitespace character of the slice is a single UTF-8 byte,
`next` never panics. -/
theorem next_ok_of_ascii_ws :
    ∀ {s : List Char}, (∀ c ∈ s, isRustWhitespace c = true → utf8Len c = 1) →
      ∃ p, next s = Except.ok p := by
  intro s
  induction s with
  | nil => intro h; exact ⟨(none, []), rfl⟩
  | cons c cs ih =>
    intro h
    by_cases hws : isRustWhitespace c = true
    · have hsz : utf8Len c = 1 := h c (by simp) hws
      obtain ⟨p, hp⟩ := ih (fun x hx hwx => h x (List.mem_cons_of_mem _ hx) hwx)
      exact ⟨p, by rw [show next (c :: cs) = next cs by simp [next, hws, hsz], hp]⟩
    · have hws' : isRustWhitespace c = false := by simpa using hws
      cases hdw : cs.dropWhile nonWs with
      | nil => exact ⟨(some (c :: cs), []), by simp [next, hws', hdw]⟩
      | cons w tail =>
        obtain ⟨hwf, hsplit⟩ := dropWhile_eq_cons_spec hdw
        have hwws : isRustWhitespace w = true := by simpa [nonWs] using hwf
        have hmem : w ∈ cs := by rw [hsplit]; simp
        have hsz : utf8Len w = 1 := h w (List.mem_cons_of_mem _ hmem) hwws
        exact ⟨(some (c :: cs.takeWhile nonWs), tail), by simp [next, hws', hdw, hsz]⟩

/-- When every whitespace character of the slice is a single UTF-8 byte,
the whole iteration completes within a budget exceeding the length. -/
theorem tokensFuel_ok_of_ascii_ws :
    ∀ (fuel : Nat) {s : List Char}, s.length < fuel →
      (∀ c ∈ s, isRustWhitespace c = true → utf8Len c = 1) →
      ∃ ts, tokensFuel fuel s = Except.ok ts := by
  intro fuel
  induction fuel with
  | zero => intro s hlen _; omega
  | succ fuel ih =>
    intro s hlen h
    obtain ⟨⟨o, r⟩, hp⟩ := next_ok_of_ascii_ws h
    cases o with
    | none => exact ⟨[], tokensFuel_succ_none hp⟩
    | some t =>
      have hr : ∀ c ∈ r, isRustWhitespace c = true → utf8Len c = 1 := by
        intro x hx hwx
        obtain ⟨w, hw, ht, htw, hcase⟩ := next_some_spec hp
        rcases hcase with ⟨d, hd, hsplit⟩ | ⟨hrnil, hsplit⟩
        · exact h x (by rw [hsplit]; simp [hx]) hwx
        · rw [hrnil] at hx; cases hx
      have hlen' : r.length < fuel :=
        lt_of_lt_of_le (next_some_length hp) (Nat.lt_succ_iff.mp hlen)
      obtain ⟨ts, hts⟩ := ih hlen' hr
      exact ⟨t :: ts, tokensFuel_succ_some hp hts⟩

/-- An iteration budget of `length + 1` always suffices for the retry
loop inside a single `next` call: each retry drops one character. -/
theorem nextIterFuel_complete :
    ∀ (s : List Char) (fuel : Nat), s.length < fuel →
      nextIterFuel fuel s = some (next s) := by
  intro s
  induction s with
  | nil =>
    intro fuel h
    cases fuel with
    | zero => omega
    | succ f => rfl
  | cons c cs ih =>
    intro fuel h
    cases fuel with
    | zero => omega
    | succ f =>
      by_cases hws : isRustWhitespace c = true
      · by_cases hsz : utf8Len c = 1
        · rw [show nextIterFuel (f + 1) (c :: cs) = nextIterFuel f cs by
            simp [nextIterFuel, hws, hsz]]
          rw [show next (c :: cs) = next cs by simp [next, hws, hsz]]
          exact ih f (by simp at h; omega)
        · simp [nextIterFuel, next, hws, hsz]
      · have hws' : isRustWhitespace c = false := by simpa using hws
        cases hdw : cs.dropWhile nonWs with
        | nil => simp [nextIterFuel, next, hws', hdw]
        | cons w tail =>
          by_cases hsz : utf8Len w = 1
          · simp [nextIterFuel, next, hws', hdw, hsz]
          · simp [nextIterFuel, next, hws', hdw, hsz]

/-! ### Claims -/

/-- Claim C1: refuted (code bug).  Not every call to `next` completes
normally: on an input whose first whitespace code point is multi-byte
(here U+00A0, NO-BREAK SPACE), `find` returns its byte offset and
re-slicing at `offset + 1` falls inside the character, which panics in
Rust; the model reports the panic as `Except.error`. -/
theorem C1_multibyte_whitespace_panics :
    next [Char.ofNat 0xA0] = Except.error () ∧
    next (String.data "a\u00A0b") = Except.error () := by
  decide

/-- Claim C2 (amended): across any non-panicking call the slice never
grows; a token-returning call strictly shrinks it, removing the leading
run of skipped whitespace code points, the returned token, and exactly
one terminating whitespace code point (or everything to end-of-buffer
when no whitespace followed the token). -/
theorem C2_remaining_never_grows (s : List Char) (o : Option (List Char)) (r : List Char)
    (h : next s = Except.ok (o, r)) :
    r.length ≤ s.length ∧
    ∀ t, o = some t → r.length < s.length ∧
      ∃ w, (∀ x ∈ w, isRustWhitespace x = true) ∧
        ((∃ c, isRustWhitespace c = true ∧ s = w ++ t ++ c :: r) ∨ (r = [] ∧ s = w ++ t)) := by
  cases o with
  | none =>
    obtain ⟨rfl, -⟩ := next_none_spec h
    exact ⟨Nat.zero_le _, fun t ht => by cases ht⟩
  | some t =>
    have hlt := next_some_length h
    refine ⟨Nat.le_of_lt hlt, ?_⟩
    intro u hu
    obtain rfl : t = u := Option.some.inj hu
    obtain ⟨w, hw, ht, htw, hcase⟩ := next_some_spec h
    exact ⟨hlt, w, hw, hcase⟩

/-- Claim C2, counterexample to the claim as stated: on `" a b"` the
call returns token `"a"` with remaining `"b"`, so it removed the
skipped leading space as well — the remaining length is not the
original length minus (token length + 1). -/
theorem C2_counterexample :
    next (String.data " a b") = Except.ok (some (String.data "a"), String.data "b") ∧
    (String.data "b").length ≠ (String.data " a b").length - ((String.data "a").length + 1) := by
  decide

/-- Claim C2, witness: a concrete strict shrink. -/
theorem C2_witness : (String.data "b").length < (String.data " a b").length :=
  ((C2_remaining_never_grows (String.data " a b") (some (String.data "a")) (String.data "b")
    (by decide)).2 (String.data "a") rfl).1

/-- Claim C3: when the iteration completes, concatenating the produced
tokens in order with exactly one whitespace separator between
consecutive tokens yields a string whose non-whitespace content equals
the non-whitespace content of the original input. -/
theorem C3_reconstruction {sep : Char} (hsep : isRustWhitespace sep = true)
    {s : List Char} {ts : List (List Char)} (h : tokens s = Except.ok ts) :
    (joinWithSep sep ts).filter nonWs = s.filter nonWs := by
  obtain ⟨hj, hall⟩ := tokensFuel_spec _ h
  rw [filter_joinWithSep hsep (fun t ht x hx => (hall t ht).2 x hx), hj]

/-- Claim C3, witness: reconstruction on `"ab cd"`. -/
theorem C3_witness :
    (joinWithSep ' ' [String.data "ab", String.data "cd"]).filter nonWs =
      (String.data "ab cd").filter nonWs :=
  @C3_reconstruction ' ' (by decide) (String.data "ab cd")
    [String.data "ab", String.data "cd"] (by decide)

/-- Claim C4: every token returned by `next` is a non-empty,
whitespace-free contiguous sub-span of the slice it was extracted
from. -/
theorem C4_tokens_nonempty_no_whitespace {s t r : List Char}
    (h : next s = Except.ok (some t, r)) :
    t ≠ [] ∧ (∀ c ∈ t, isRustWhitespace c = false) ∧ t <:+: s := by
  obtain ⟨w, hw, ht, htw, hcase⟩ := next_some_spec h
  refine ⟨ht, htw, ?_⟩
  rcases hcase with ⟨c, hc, hsplit⟩ | ⟨hr, hsplit⟩
  · exact ⟨w, c :: r, hsplit.symm⟩
  · exact ⟨w, [], by rw [List.append_nil]; exact hsplit.symm⟩

/-- Claim C4, witness: `"ab"` is a token sub-span of `" ab cd"`. -/
theorem C4_witness : String.data "ab" <:+: String.data " ab cd" :=
  (@C4_tokens_nonempty_no_whitespace (String.data " ab cd") (String.data "ab")
    (String.data "cd") (by decide)).2.2

/-- Claim C5: when `next` signals end-of-sequence the slice left behind
is empty, a further call returns end-of-sequence again without changing
the slice, and `rest_as_slice` on that state is the empty view. -/
theorem C5_exhaustion_idempotent {s r : List Char} (h : next s = Except.ok (none, r)) :
    r = [] ∧ next r = Except.ok (none, r) ∧ rest_as_slice (SplitWhitespace.mk r) = [] := by
  obtain ⟨rfl, -⟩ := next_none_spec h
  exact ⟨rfl, rfl, rfl⟩

/-- Claim C5, witness: exhaustion on the all-whitespace input `" "`. -/
theorem C5_witness : next ([] : List Char) = Except.ok (none, []) :=
  (@C5_exhaustion_idempotent (String.data " ") [] (by decide)).2.1

/-- Claim C6: `rest_as_slice` is a pure observer: it returns exactly the
stored remaining span (raw, with any pending leading whitespace), on a
fresh tokenizer it returns the entire input, and the observed state is
the whole tokenizer state (so observing cannot perturb iteration). -/
theorem C6_rest_as_slice_pure :
    (∀ s, rest_as_slice (new s) = s) ∧
    (∀ t : SplitWhitespace, rest_as_slice t = t.slice) ∧
    (∀ t : SplitWhitespace, new (rest_as_slice t) = t) :=
  ⟨fun _ => rfl, fun _ => rfl, fun _ => rfl⟩

/-- Claim C7: scenario B — after extracting `"say"` and `"joe"` the rest
is exactly `"Hey Joe, what's up?"`; scenario C — after five extractions
(`"word1"`..`"word5"`) the rest is exactly `"   some  more   text "`. -/
theorem C7_rest_after_extractions :
    next (String.data "say joe Hey Joe, what\x27s up?") =
      Except.ok (some (String.data "say"), String.data "joe Hey Joe, what\x27s up?") ∧
    next (String.data "joe Hey Joe, what\x27s up?") =
      Except.ok (some (String.data "joe"), String.data "Hey Joe, what\x27s up?") ∧
    rest_as_slice (new (String.data "Hey Joe, what\x27s up?")) =
      String.data "Hey Joe, what\x27s up?" ∧
    next (String.data "word1   word2  word3     word4 word5    some  more   text ") =
      Except.ok (some (String.data "word1"),
        String.data "  word2  word3     word4 word5    some  more   text ") ∧
    next (String.data "  word2  word3     word4 word5    some  more   text ") =
      Except.ok (some (String.data "word2"),
        String.data " word3     word4 word5    some  more   text ") ∧
    next (String.data " word3     word4 word5    some  more   text ") =
      Except.ok (some (String.data "word3"),
        String.data "    word4 word5    some  more   text ") ∧
    next (String.data "    word4 word5    some  more   text ") =
      Except.ok (some (String.data "word4"), String.data "word5    some  more   text ") ∧
    next (String.data "word5    some  more   text ") =
      Except.ok (some (String.data "word5"), String.data "   some  more   text ") ∧
    rest_as_slice (new (String.data "   some  more   text ")) =
      String.data "   some  more   text " :=
  ⟨by decide, by decide, by decide, by decide, by decide, by decide, by decide,
    by decide, by decide⟩

/-- Claim C8: scenario A — `"These are some words"` yields exactly
`"These"`, `"are"`, `"some"`, `"words"`; scenario D — trailing
whitespace yields `"hello"`, `"world"` then end-of-sequence; scenario F
— the empty input signals end-of-sequence immediately. -/
theorem C8_token_sequences :
    tokens (String.data "These are some words") =
      Except.ok [String.data "These", String.data "are",
        String.data "some", String.data "words"] ∧
    tokens (String.data "hello world       ") =
      Except.ok [String.data "hello", String.data "world"] ∧
    tokens (String.data "") = Except.ok [] ∧
    next (String.data "") = Except.ok (none, String.data "") := by
  decide

/-- Claim C9: the retry loop inside a single `next` call finishes within
`length + 1` iterations on every input (each retry drops one character),
so every call terminates, even on arbitrarily long whitespace runs. -/
theorem C9_next_call_terminates (s : List Char) (fuel : Nat) (h : s.length < fuel) :
    nextIterFuel fuel s = some (next s) :=
  nextIterFuel_complete s fuel h

/-- Claim C9, witness: two iterations plus the final one suffice for a
two-character whitespace run. -/
theorem C9_witness : nextIterFuel 3 (String.data "  ") = some (next (String.data "  ")) :=
  C9_next_call_terminates (String.data "  ") 3 (by decide)

/-- Claim C10: when every whitespace code point of the input occupies a
single UTF-8 byte (is ASCII), no call of `next` panics — every slicing
offset is a character boundary — and the whole iteration completes. -/
theorem C10_ascii_whitespace_no_panic {s : List Char}
    (h : ∀ c ∈ s, isRustWhitespace c = true → utf8Len c = 1) :
    (∃ p, next s = Except.ok p) ∧ (∃ ts, tokens s = Except.ok ts) :=
  ⟨next_ok_of_ascii_ws h, tokensFuel_ok_of_ascii_ws (s.length + 1) (Nat.lt_succ_self _) h⟩

/-- Claim C10, witness: no panic on the ASCII-whitespace input `" a"`. -/
theorem C10_witness : ∃ p, next (String.data " a") = Except.ok p :=
  (@C10_ascii_whitespace_no_panic (String.data " a") (by decide)).1
